import Mathlib

/-!
Verification of the persephone versioned key-value persistence layer.

The development shallowly embeds the core of the repository:
`src/utils/migrations.ts` (`getStoredVersion`, `setStoredVersion`,
`executeMigrations`, `initializeKey`, the version-key helpers) and the
facade operations of `src/core/persephone.ts` (`open`, `get`, `set`,
`keys`, `length`).

Modelling conventions:
* The asynchronous Raw Store is modelled as a function
  `Store := String → Option String`; `await adapter.setItem` becomes an
  explicit functional update, and sequencing of effects is explicit state
  passing.
* JavaScript exceptions are modelled with `Except`.  A computation that
  can both write and throw returns `Except (RunError × Store) (Store × _)`
  where the error case carries the store as it was at the moment of the
  throw.
* JavaScript truthiness on strings (`if (!rawData)`) treats both `null`
  and the empty string as absent; `strFalsy` reproduces that.
* `JSON.stringify({version})` / `JSON.parse` on version metadata are
  modelled by an executable decimal codec producing the literal text
  `{"version":<digits>}` (`encodeMeta` / `decodeMeta`); unparseable text
  decodes to `none`, matching the `try/catch` that degrades corrupt
  metadata to "no version recorded".
-/

/-! ### Decimal digits codec (model of the JSON number encoding) -/

/-- The character for a single decimal digit (digits ≥ 9 clamp to `'9'`;
only inputs `< 10` are ever produced by `natDigits`). -/
def digitToChar (d : Nat) : Char :=
  match d with
  | 0 => '0' | 1 => '1' | 2 => '2' | 3 => '3' | 4 => '4'
  | 5 => '5' | 6 => '6' | 7 => '7' | 8 => '8' | _ => '9'

/-- Partial inverse of `digitToChar`. -/
def charToDigit (c : Char) : Option Nat :=
  if '0' ≤ c ∧ c ≤ '9' then some (c.toNat - '0'.toNat) else none

/-- Most-significant-first decimal digits of `n`, with explicit fuel so the
recursion is structural. -/
def natDigitsAux (fuel : Nat) (n : Nat) : List Char :=
  match fuel with
  | 0 => []
  | fuel + 1 =>
    if n < 10 then [digitToChar n]
    else natDigitsAux fuel (n / 10) ++ [digitToChar (n % 10)]

/-- Decimal digits of a natural number. -/
def natDigits (n : Nat) : List Char := natDigitsAux (n + 1) n

/-- Accumulating decimal parser; fails on any non-digit character. -/
def parseDigitsAux (acc : Nat) : List Char → Option Nat
  | [] => some acc
  | c :: cs =>
    match charToDigit c with
    | some d => parseDigitsAux (acc * 10 + d) cs
    | none => none

/-- Parse a non-empty all-digit character list as a natural number. -/
def parseDigits (cs : List Char) : Option Nat :=
  match cs with
  | [] => none
  | _ => parseDigitsAux 0 cs

/-- Decimal text of an integer (with `'-'` sign for negatives), as written
by `JSON.stringify` for an integral number. -/
def intChars (v : Int) : List Char :=
  if v < 0 then '-' :: natDigits v.natAbs else natDigits v.natAbs

/-- Parse an optionally-signed decimal integer. -/
def parseIntChars (cs : List Char) : Option Int :=
  match cs with
  | [] => none
  | c :: rest =>
    if c = '-' then (parseDigits rest).map (fun n => -(n : Int))
    else (parseDigits (c :: rest)).map (fun n => (n : Int))

/-! ### Version metadata codec: `JSON.stringify({version})` / `JSON.parse` -/

/-- The characters of the literal text between the opening brace of
`JSON.stringify({version: v})` and the first digit of `v`. -/
def metaOpenChars : List Char :=
  ['\x7b', '\"', 'v', 'e', 'r', 's', 'i', 'o', 'n', '\"', ':']

/-- The serialized version metadata record written by `setStoredVersion`:
the exact text `JSON.stringify({version: v})` produces. -/
def encodeMeta (v : Int) : String :=
  ⟨metaOpenChars ++ intChars v ++ ['\x7d']⟩

/-- Strip a literal sequence of characters from the front of a list; `none`
when it does not match. -/
def stripPre : List Char → List Char → Option (List Char)
  | [], cs => some cs
  | _ :: _, [] => none
  | p :: ps, c :: cs => if c = p then stripPre ps cs else none

/-- Parse the text of a `{"version":<int>}` record; `none` on anything
else, modelling the `try { JSON.parse } catch { return null }` in
`getStoredVersion` (corrupt metadata degrades to "no version"). -/
def parseMeta (cs : List Char) : Option Int :=
  match stripPre metaOpenChars cs with
  | none => none
  | some rest =>
    match rest.reverse with
    | '\x7d' :: mid => parseIntChars mid.reverse
    | _ => none

/-- Decode a stored metadata string to its version number. -/
def decodeMeta (s : String) : Option Int := parseMeta s.data

/-! ### Raw Store model (the `IStorage` adapter contract)

The asynchronous adapter is modelled as a total map from keys to the
optional stored text; `getItem` is application, `setItem` is functional
update. -/

abbrev Store := String → Option String

/-- `await adapter.setItem(k, v)` as a store transformer. -/
def setItem (st : Store) (k v : String) : Store :=
  fun j => if j = k then some v else st j

/-- JavaScript truthiness on an optional string: `!x` is true for both
`null` and the empty string. -/
def strFalsy : Option String → Bool
  | none => true
  | some s => s.data.isEmpty

/-! ### Version ledger (src/utils/migrations.ts) -/

/-- Prefix for version metadata keys. -/
def VERSION_PREFIX : String := "__persephone_version__"

/-- Get storage key for version metadata. -/
def getVersionKey (key : String) : String := VERSION_PREFIX ++ key

/-- `key.startsWith(VERSION_PREFIX)`, used by `keys()`/`length()` to filter
metadata entries out of enumeration. -/
def isVersionKey (key : String) : Bool :=
  List.isPrefixOf ( VERSION_PREFIX).data key.data

/-- `getStoredVersion`: read the metadata record for `key`; `null` when the
record is missing, falsy, or fails to parse. -/
def getStoredVersion (st : Store) (key : String) : Option Int :=
  match st (getVersionKey key) with
  | none => none
  | some versionData =>
    if versionData.data.isEmpty then none
    else decodeMeta versionData

/-- `setStoredVersion`: overwrite the metadata record for `key`. -/
def setStoredVersion (st : Store) (key : String) (version : Int) : Store :=
  setItem st (getVersionKey key) (encodeMeta version)

/-! ### Data model (src/types/schema.ts) -/

/-- Data migration function.  A JavaScript `migrate` callback may throw;
this is modelled by `Except String`. -/
structure Migration (α : Type) where
  version : Int
  migrate : α → Except String α

/-- Reconciliation strategy when the stored version exceeds the target. -/
inductive Reconciliation (α : Type) where
  | migrate
  | reset
  | ignore
  | custom (f : α → Int → Int → Except String α)

/-- Schema for a specific key.  `ser`/`deser` model the codec the facade
uses (the schema's custom `serialize`/`deserialize` hooks, or the default
`JSON.stringify`/`JSON.parse`); `validator` models the optional standard
validator's `parse` (which may throw). -/
structure Schema (α : Type) where
  version : Int
  default : α
  migrations : List (Migration α) := []
  reconciliation : Option (Reconciliation α) := none
  ser : α → String
  deser : String → α
  validator : Option (α → Except String α) := none

/-- `MigrationError` (src/errors/migration.error.ts): `message` is the
message of the underlying thrown error, `key`/`fromVersion`/`toVersion`
are the constructor arguments, `cause` the original thrown value. -/
structure MigrationError where
  message : String
  key : String
  fromVersion : Int
  toVersion : Int
  cause : String
deriving DecidableEq

/-- An error escaping `initializeKey`/`get`/`set`: a `MigrationError`, a
`ValidationError` (key and message), or a raw rethrown value (a custom
reconciliation function's throw). -/
inductive RunError where
  | migration (e : MigrationError)
  | validation (key : String) (message : String)
  | other (message : String)
deriving DecidableEq

/-! ### Migration Engine (src/utils/migrations.ts) -/

/-- One insertion step of a stable ascending sort by `version`: the element
goes after every element whose version is `≤` its own, reproducing the
stable `Array.prototype.sort((a, b) => a.version - b.version)`. -/
def insertByVersion {α : Type} (m : Migration α) :
    List (Migration α) → List (Migration α)
  | [] => [m]
  | b :: bs =>
    if m.version < b.version then m :: b :: bs else b :: insertByVersion m bs

/-- `[...migrations].sort((a, b) => a.version - b.version)`: a stable sort
ascending by version. -/
def sortByVersion {α : Type} (l : List (Migration α)) : List (Migration α) :=
  l.foldl (fun acc m => insertByVersion m acc) []

/-- The sequential `for (const migration of migrationsToApply)` loop: feed
each step the previous step's output; on a throw, wrap it in a
`MigrationError` carrying the placeholder key `"unknown"`, the run's
`fromVersion` and the failing step's version, and abort. -/
def applyMigs {α : Type} (data : α) (fromVersion : Int) :
    List (Migration α) → Except MigrationError α
  | [] => .ok data
  | m :: ms =>
    match m.migrate data with
    | .ok next => applyMigs next fromVersion ms
    | .error err => .error ⟨err, "unknown", fromVersion, m.version, err⟩

/-- `executeMigrations(data, schema, fromVersion, toVersion)`. -/
def executeMigrations {α : Type} (data : α) (schema : Schema α)
    (fromVersion toVersion : Int) : Except MigrationError α :=
  if fromVersion ≥ toVersion then
    -- Version is already up to date or newer
    .ok data
  else if schema.migrations.isEmpty then
    -- No migrations - return data as is or default
    if fromVersion = 0 then .ok schema.default else .ok data
  else
    let sortedMigrations := sortByVersion schema.migrations
    let migrationsToApply := sortedMigrations.filter
      (fun m => fromVersion < m.version && m.version ≤ toVersion)
    if migrationsToApply.isEmpty then .ok data
    else applyMigs data fromVersion migrationsToApply

/-- `initializeKey(adapter, key, schema)`: the per-key orchestration run at
database open.  The success value is the final store paired with the
returned value (`none` models the `ignore` branch's `return null`); the
error value carries the store as it was when the exception was raised. -/
def initializeKey {α : Type} (st : Store) (key : String) (schema : Schema α) :
    Except (RunError × Store) (Store × Option α) :=
  let storedVersion := getStoredVersion st key
  let rawData := st key
  if strFalsy rawData then
    -- No data - set version and return default
    .ok (setStoredVersion st key schema.version, some schema.default)
  else
    let data := schema.deser (rawData.getD "")
    let fromVersion := storedVersion.getD 0
    let toVersion := schema.version
    if fromVersion = toVersion then
      -- Version is up to date
      .ok (st, some data)
    else
      let migratedE : Except (RunError × Store) (Option α) :=
        if fromVersion < toVersion then
          match executeMigrations data schema fromVersion toVersion with
          | .ok v => .ok (some v)
          | .error e => .error (.migration e, st)
        else
          -- Data version is newer than schema - use reconciliation
          match schema.reconciliation.getD .migrate with
          | .reset => .ok (some schema.default)
          | .ignore => .ok none
          | .migrate =>
            match executeMigrations data schema toVersion fromVersion with
            | .ok v => .ok (some v)
            | .error e => .error (.migration e, st)
          | .custom f =>
            match f data fromVersion toVersion with
            | .ok v => .ok (some v)
            | .error msg => .error (.other msg, st)
      match migratedE with
      | .error e => .error e
      | .ok none => .ok (st, none)
      | .ok (some migratedData) =>
        -- Save migrated data and update version
        .ok (setStoredVersion (setItem st key (schema.ser migratedData))
               key schema.version,
             some migratedData)

/-! ### Facade operations (src/core/persephone.ts) -/

/-- `Persephone.open()`: run `initializeKey` for every declared schema
entry in declaration order, aborting on the first error. -/
def openDB {α : Type} (st : Store) :
    List (String × Schema α) → Except (RunError × Store) Store
  | [] => .ok st
  | (key, schema) :: rest =>
    match initializeKey st key schema with
    | .error e => .error e
    | .ok (st', _) => openDB st' rest

/-- The async body of `Persephone.get(key)` (after the adapter, open-flag
and schema-defined guards): read, fall back to the schema default on a
falsy raw value, deserialize, and validate when a validator is set. -/
def pget {α : Type} (st : Store) (key : String) (schema : Schema α) :
    Except RunError α :=
  let rawData := st key
  if strFalsy rawData then .ok schema.default
  else
    let data := schema.deser (rawData.getD "")
    match schema.validator with
    | some v =>
      match v data with
      | .ok parsed => .ok parsed
      | .error msg => .error (.validation key msg)
    | none => .ok data

/-- The async body of `Persephone.set(key, value)`: validate when a
validator is set, serialize, write the value, then unconditionally refresh
the version metadata to the schema's current version. -/
def pset {α : Type} (st : Store) (key : String) (schema : Schema α)
    (value : α) : Except RunError Store :=
  let validatedE : Except RunError α :=
    match schema.validator with
    | some v =>
      match v value with
      | .ok validated => .ok validated
      | .error msg => .error (.validation key msg)
    | none => .ok value
  match validatedE with
  | .error e => .error e
  | .ok validatedValue =>
    .ok (setStoredVersion (setItem st key (schema.ser validatedValue))
           key schema.version)

/-- `Persephone.keys()`: the adapter's key enumeration filtered to entries
that are not version-metadata keys and have a declared schema. -/
def pkeys {α : Type} (allKeys : List String)
    (schemas : List (String × Schema α)) : List String :=
  allKeys.filter (fun k => !isVersionKey k && (schemas.lookup k).isSome)

/-- `Persephone.length()`: the count of the same filtered enumeration. -/
def plength {α : Type} (allKeys : List String)
    (schemas : List (String × Schema α)) : Nat :=
  (allKeys.filter (fun k => !isVersionKey k && (schemas.lookup k).isSome)).length

/-! ### Concrete codec and schema instances used by witnesses and
counterexamples -/

/-- A simple value codec on `Int` used by concrete instances: decimal text
out, decimal parse (defaulting to 0) back in. -/
def tser : Int → String := fun n => ⟨intChars n⟩

/-- Inverse direction of the concrete codec. -/
def tdeser : String → Int := fun s => (parseIntChars s.data).getD 0

/-- The empty store. -/
def emptyStore : Store := fun _ => none

/-- `true` exactly when the reconciliation option is the literal policy
string `'ignore'`. -/
def reconIsIgnore {α : Type} : Option (Reconciliation α) → Bool
  | some .ignore => true
  | _ => false

/-- A key is in a state in which `initializeKey` performs no migration
work and leaves the store unchanged: its raw value is falsy while its
metadata already reads the schema version (the no-data branch rewrites the
identical record), or its stored version equals the target (fast path), or
its stored version exceeds a target whose policy is `ignore`. -/
def stableKey {α : Type} (st : Store) (key : String) (schema : Schema α) : Prop :=
  (strFalsy (st key) = true ∧
    st (getVersionKey key) = some (encodeMeta schema.version))
  ∨ (strFalsy (st key) = false ∧ getStoredVersion st key = some schema.version)
  ∨ (strFalsy (st key) = false ∧ reconIsIgnore schema.reconciliation = true ∧
      ∃ v, getStoredVersion st key = some v ∧ schema.version < v)

/-- A migration step to version 2 adding one (concrete instance). -/
def migAdd1 : Migration Int := ⟨2, fun x => .ok (x + 1)⟩

/-- A second, distinct migration step also labelled version 2 (concrete
instance with a duplicate version number). -/
def migDouble : Migration Int := ⟨2, fun x => .ok (x * 2)⟩

/-- A schema declaring two version-2 migrations, `migAdd1` first. -/
def dupSchemaA : Schema Int :=
  { version := 2
    default := 0
    migrations := [migAdd1, migDouble]
    ser := tser
    deser := tdeser }

/-- The same schema as `dupSchemaA` with the two migrations declared in
the opposite order. -/
def dupSchemaB : Schema Int :=
  { version := 2
    default := 0
    migrations := [migDouble, migAdd1]
    ser := tser
    deser := tdeser }

/-- A schema with three distinct migrations declared out of order, used to
instantiate the fold characterization. -/
def foldSchema : Schema Int :=
  { version := 5
    default := 0
    migrations := [⟨3, fun x => .ok (x * 10)⟩, ⟨2, fun x => .ok (x + 1)⟩,
      ⟨5, fun x => .ok (x + 7)⟩]
    ser := tser
    deser := tdeser }

/-- A schema whose version-2 migration always throws and whose version-3
migration would succeed, targeting version 3. -/
def failSchema : Schema Int :=
  { version := 3
    default := 0
    migrations := [⟨2, fun _ => .error "boom"⟩, ⟨3, fun x => .ok (x + 1)⟩]
    ser := tser
    deser := tdeser }

/-- A store holding raw data `"5"` under `"user"` and no version metadata
(so the run starts at `fromVersion = 0`). -/
def failStore : Store := setItem emptyStore "user" "5"

/-- A schema targeting version 1 that still declares a (stale) migration
to version 2; reconciliation left unset, so it defaults to `'migrate'`. -/
def staleSchema : Schema Int :=
  { version := 1
    default := 0
    migrations := [⟨2, fun x => .ok (x + 1)⟩]
    ser := tser
    deser := tdeser }

/-- A store whose key `"k"` holds data `"10"` recorded at version 3 —
newer than `staleSchema`'s target 1. -/
def staleStore : Store :=
  setItem (setItem emptyStore "k" "10") (getVersionKey "k") (encodeMeta 3)

/-- A schema targeting version 3 whose reconciliation policy is
`'ignore'`. -/
def ignoreSchema : Schema Int :=
  { version := 3
    default := 0
    reconciliation := some .ignore
    ser := tser
    deser := tdeser }

/-- A store whose key `"g"` holds `"42"` recorded at version 7 — newer
than `ignoreSchema`'s target 3. -/
def ignoreStore : Store :=
  setItem (setItem emptyStore "g" "42") (getVersionKey "g") (encodeMeta 7)

/-- A minimal schema at version 1 used for fresh-key runs. -/
def freshSchema : Schema Int :=
  { version := 1
    default := 0
    ser := tser
    deser := tdeser }

/-- A version-1 schema with one migration, used as a data key's schema in
the prefix-collision counterexample. -/
def colSchemaA : Schema Int :=
  { version := 1
    default := 0
    migrations := [⟨1, fun n => .ok (n + 1)⟩]
    ser := tser
    deser := tdeser }

/-- A second version-1 schema with one migration, declared under a key
that itself starts with the version prefix. -/
def colSchemaB : Schema Int :=
  { version := 1
    default := 5
    migrations := [⟨1, fun n => .ok (n + 10)⟩]
    ser := tser
    deser := tdeser }

/-- A declared data key that collides with the version-metadata key of
`"a"`. -/
def colKey : String := getVersionKey "a"

/-- Schemas declaring both `"a"` and the colliding
`"__persephone_version__a"` as data keys. -/
def colSchemas : List (String × Schema Int) := [("a", colSchemaA), (colKey, colSchemaB)]

/-- A store in which the single key `"a"` is already current: data `"5"`
at version 1. -/
def idemStore : Store :=
  setItem (setItem emptyStore "a" "5") (getVersionKey "a") (encodeMeta 1)

/-- A one-key schema declaration for `idemStore`. -/
def idemSchemas : List (String × Schema Int) := [("a", colSchemaA)]

/-! ### Codec roundtrip lemmas -/

theorem charToDigit_digitToChar {d : Nat} (h : d < 10) :
    charToDigit (digitToChar d) = some d := by
  interval_cases d <;> decide

theorem digitToChar_ne_dash (d : Nat) : digitToChar d ≠ '-' := by
  unfold digitToChar
  split <;> decide

theorem parseDigitsAux_append (acc : Nat) (xs ys : List Char) :
    parseDigitsAux acc (xs ++ ys) =
      (parseDigitsAux acc xs).bind (fun m => parseDigitsAux m ys) := by
  induction xs generalizing acc with
  | nil => rfl
  | cons c cs ih =>
    simp only [List.cons_append, parseDigitsAux]
    cases charToDigit c with
    | none => rfl
    | some d => simp [ih]

theorem natDigitsAux_ne_nil {fuel n : Nat} (h : 0 < fuel) :
    natDigitsAux fuel n ≠ [] := by
  cases fuel with
  | zero => omega
  | succ fuel =>
    unfold natDigitsAux
    split
    · simp
    · simp

theorem parseDigitsAux_natDigitsAux :
    ∀ (fuel n acc : Nat), n < 10 ^ fuel →
      parseDigitsAux acc (natDigitsAux fuel n) =
        some (acc * 10 ^ (natDigitsAux fuel n).length + n) := by
  intro fuel
  induction fuel with
  | zero => intro n acc h; simp at h; simp [natDigitsAux, parseDigitsAux, h]
  | succ fuel ih =>
    intro n acc h
    by_cases hn : n < 10
    · simp [natDigitsAux, hn, parseDigitsAux, charToDigit_digitToChar hn]
    · have hfuel : 0 < fuel := by
        rcases Nat.eq_zero_or_pos fuel with hf | hf
        · subst hf; simp at h; omega
        · exact hf
      have hdiv : n / 10 < 10 ^ fuel := by
        have : n < 10 ^ fuel * 10 := by
          have := h
          rw [pow_succ] at this
          omega
        exact Nat.div_lt_of_lt_mul (by omega)
      simp only [natDigitsAux, if_neg hn]
      rw [parseDigitsAux_append, ih (n / 10) acc hdiv]
      have hmod : n % 10 < 10 := Nat.mod_lt _ (by omega)
      simp only [Option.some_bind, parseDigitsAux, charToDigit_digitToChar hmod,
        List.length_append, List.length_cons, List.length_nil]
      congr 1
      rw [pow_succ, ← mul_assoc]
      generalize acc * 10 ^ (natDigitsAux fuel (n / 10)).length = M
      omega

theorem parseDigits_natDigits (n : Nat) : parseDigits (natDigits n) = some n := by
  have hlt : n < 10 ^ (n + 1) :=
    lt_of_lt_of_le (Nat.lt_pow_self (by omega) n)
      (Nat.pow_le_pow_right (by omega) (by omega))
  have h := parseDigitsAux_natDigitsAux (n + 1) n 0 hlt
  have hne : natDigits n ≠ [] := natDigitsAux_ne_nil (by omega)
  unfold natDigits at *
  unfold parseDigits
  cases hcs : natDigitsAux (n + 1) n with
  | nil => exact absurd hcs hne
  | cons c cs =>
    rw [hcs] at h
    simpa using h

theorem natDigitsAux_head_digit :
    ∀ (fuel n : Nat), 0 < fuel →
      ∃ d tl, d < 10 ∧ natDigitsAux fuel n = digitToChar d :: tl := by
  intro fuel
  induction fuel with
  | zero => intro n h; omega
  | succ fuel ih =>
    intro n _
    by_cases hn : n < 10
    · exact ⟨n, [], hn, by simp [natDigitsAux, hn]⟩
    · cases hrec : natDigitsAux fuel (n / 10) with
      | nil =>
        refine ⟨n % 10, [], Nat.mod_lt _ (by omega), ?_⟩
        simp [natDigitsAux, hn, hrec]
      | cons c tl =>
        have hfuel : 0 < fuel := by
          by_contra hz
          have hz' : fuel = 0 := by omega
          subst hz'
          simp [natDigitsAux] at hrec
        obtain ⟨d, tl', hd, heq⟩ := ih (n / 10) hfuel
        refine ⟨d, tl' ++ [digitToChar (n % 10)], hd, ?_⟩
        simp [natDigitsAux, hn, heq]

theorem natDigits_head_digit (n : Nat) :
    ∃ d tl, d < 10 ∧ natDigits n = digitToChar d :: tl :=
  natDigitsAux_head_digit (n + 1) n (by omega)

theorem parseIntChars_intChars_of_nonneg {v : Int} (h : 0 ≤ v) :
    parseIntChars (intChars v) = some v := by
  obtain ⟨d, tl, hd, heq⟩ := natDigits_head_digit v.natAbs
  have hne : digitToChar d ≠ '-' := digitToChar_ne_dash d
  have hnotlt : ¬ v < 0 := not_lt.mpr h
  have h1 : intChars v = digitToChar d :: tl := by
    rw [intChars, if_neg hnotlt, heq]
  rw [h1]
  simp only [parseIntChars, if_neg hne]
  rw [← heq, parseDigits_natDigits]
  simp [Int.natAbs_of_nonneg h]

theorem stripPre_append (p cs : List Char) : stripPre p (p ++ cs) = some cs := by
  induction p with
  | nil => rfl
  | cons c ps ih => simp [stripPre, ih]

theorem decodeMeta_encodeMeta {v : Int} (h : 0 ≤ v) :
    decodeMeta (encodeMeta v) = some v := by
  show parseMeta (metaOpenChars ++ intChars v ++ ['\x7d']) = some v
  unfold parseMeta
  rw [List.append_assoc, stripPre_append]
  simp [parseIntChars_intChars_of_nonneg h]

theorem encodeMeta_data_ne_nil (v : Int) : (encodeMeta v).data ≠ [] := by
  show metaOpenChars ++ intChars v ++ ['\x7d'] ≠ []
  simp [metaOpenChars]

/-! ### Store and version-key infrastructure lemmas -/

theorem setItem_self (st : Store) (k v : String) : setItem st k v k = some v := by
  simp [setItem]

theorem setItem_other (st : Store) {k j : String} (v : String) (h : j ≠ k) :
    setItem st k v j = st j := by
  simp [setItem, h]

theorem getVersionKey_data (k : String) :
    (getVersionKey k).data = ( VERSION_PREFIX).data ++ k.data := by
  simp [getVersionKey]

theorem getVersionKey_ne_self (k : String) : getVersionKey k ≠ k := by
  intro h
  have hd : (getVersionKey k).data = k.data := by rw [h]
  rw [getVersionKey_data] at hd
  have : ( VERSION_PREFIX).data.length + k.data.length = k.data.length := by
    simpa using congrArg List.length hd
  have hlen : ( VERSION_PREFIX).data.length = 0 := by omega
  revert hlen
  decide

theorem getVersionKey_inj {k₁ k₂ : String} (h : getVersionKey k₁ = getVersionKey k₂) :
    k₁ = k₂ := by
  have hd := congrArg String.data h
  rw [getVersionKey_data, getVersionKey_data] at hd
  have hdd := List.append_cancel_left hd
  cases k₁
  cases k₂
  simp only at hdd
  rw [hdd]

theorem isVersionKey_getVersionKey (k : String) :
    isVersionKey (getVersionKey k) = true := by
  rw [isVersionKey, getVersionKey_data, List.isPrefixOf_iff_prefix]
  exact List.prefix_append _ _

theorem ne_getVersionKey_of_not_isVersionKey {k : String}
    (h : isVersionKey k = false) (k' : String) : k ≠ getVersionKey k' := by
  intro he
  rw [he, isVersionKey_getVersionKey] at h
  exact absurd h (by decide)

theorem getStoredVersion_setStoredVersion_self (st : Store) (key : String)
    {version : Int} (hv : 0 ≤ version) :
    getStoredVersion (setStoredVersion st key version) key = some version := by
  unfold getStoredVersion setStoredVersion
  rw [setItem_self]
  have hne : (encodeMeta version).data ≠ [] := encodeMeta_data_ne_nil version
  simp [hne, decodeMeta_encodeMeta hv]

theorem setStoredVersion_data_entry (st : Store) (key : String) (version : Int) :
    setStoredVersion st key version key = st key :=
  setItem_other st (encodeMeta version) (getVersionKey_ne_self key).symm

theorem getStoredVersion_congr {st st' : Store} (key : String)
    (h : st' (getVersionKey key) = st (getVersionKey key)) :
    getStoredVersion st' key = getStoredVersion st key := by
  unfold getStoredVersion
  rw [h]

/-! ### Stable-sort lemmas for the migration ordering -/

theorem insertByVersion_perm {α : Type} (m : Migration α) (l : List (Migration α)) :
    List.Perm (insertByVersion m l) (m :: l) := by
  induction l with
  | nil => exact List.Perm.refl _
  | cons b bs ih =>
    unfold insertByVersion
    split
    · exact List.Perm.refl _
    · exact (ih.cons b).trans (List.Perm.swap m b bs)

theorem sortByVersionAux_perm {α : Type} :
    ∀ (l acc : List (Migration α)),
      List.Perm (l.foldl (fun acc m => insertByVersion m acc) acc) (acc ++ l) := by
  intro l
  induction l with
  | nil => intro acc; simp
  | cons m ms ih =>
    intro acc
    show List.Perm (ms.foldl (fun acc m => insertByVersion m acc) (insertByVersion m acc)) _
    have h1 := ih (insertByVersion m acc)
    have h2 : List.Perm (insertByVersion m acc ++ ms) ((m :: acc) ++ ms) :=
      (insertByVersion_perm m acc).append_right ms
    have h3 : List.Perm ((m :: acc) ++ ms) (acc ++ m :: ms) := List.perm_middle.symm
    exact h1.trans (h2.trans h3)

theorem sortByVersion_perm {α : Type} (l : List (Migration α)) :
    List.Perm (sortByVersion l) l := by
  have := sortByVersionAux_perm l []
  simpa [sortByVersion] using this

theorem insertByVersion_sorted {α : Type} (m : Migration α)
    {l : List (Migration α)}
    (h : l.Pairwise (fun a b => a.version ≤ b.version)) :
    (insertByVersion m l).Pairwise (fun a b => a.version ≤ b.version) := by
  induction l with
  | nil => simp [insertByVersion]
  | cons b bs ih =>
    rw [List.pairwise_cons] at h
    unfold insertByVersion
    split
    · rename_i hlt
      rw [List.pairwise_cons]
      refine ⟨?_, List.pairwise_cons.mpr h⟩
      intro x hx
      rw [List.mem_cons] at hx
      rcases hx with hx | hx
      · subst hx; omega
      · have := h.1 x hx
        omega
    · rename_i hge
      rw [List.pairwise_cons]
      refine ⟨?_, ih h.2⟩
      intro x hx
      have hx' := (insertByVersion_perm m bs).mem_iff.mp hx
      rw [List.mem_cons] at hx'
      rcases hx' with hx' | hx'
      · subst hx'; omega
      · exact h.1 x hx'

theorem sortByVersionAux_sorted {α : Type} :
    ∀ (l acc : List (Migration α)),
      acc.Pairwise (fun a b => a.version ≤ b.version) →
      (l.foldl (fun acc m => insertByVersion m acc) acc).Pairwise
        (fun a b => a.version ≤ b.version) := by
  intro l
  induction l with
  | nil => intro acc h; simpa using h
  | cons m ms ih =>
    intro acc h
    exact ih (insertByVersion m acc) (insertByVersion_sorted m h)

theorem sortByVersion_sorted {α : Type} (l : List (Migration α)) :
    (sortByVersion l).Pairwise (fun a b => a.version ≤ b.version) :=
  sortByVersionAux_sorted l [] (by simp)

/-! ### Migration Engine: fold characterization (claim C1) -/

theorem executeMigrations_of_empty {α : Type} (data : α) (schema : Schema α)
    (fromVersion toVersion : Int) (hlt : fromVersion < toVersion)
    (he : schema.migrations = []) :
    executeMigrations data schema fromVersion toVersion =
      .ok (if fromVersion = 0 then schema.default else data) := by
  simp only [executeMigrations]
  rw [if_neg (not_le.mpr hlt), he]
  simp only [List.isEmpty_nil, if_true]
  split <;> rfl

theorem executeMigrations_eq_fold {α : Type} (data : α) (schema : Schema α)
    (fromVersion toVersion : Int) (hlt : fromVersion < toVersion)
    (hne : schema.migrations ≠ []) :
    executeMigrations data schema fromVersion toVersion =
      applyMigs data fromVersion ((sortByVersion schema.migrations).filter
        (fun m => fromVersion < m.version && m.version ≤ toVersion)) := by
  have hbe : schema.migrations.isEmpty = false := by
    cases hm : schema.migrations with
    | nil => exact absurd hm hne
    | cons a l => rfl
  simp only [executeMigrations]
  rw [if_neg (not_le.mpr hlt), hbe]
  simp only [Bool.false_eq_true, if_false]
  cases hL : (sortByVersion schema.migrations).filter
      (fun m => fromVersion < m.version && m.version ≤ toVersion) with
  | nil => simp [applyMigs]
  | cons a l => simp

/-- C1 (amended): for `fromVersion < toVersion` and pairwise-distinct
migration versions, `executeMigrations` applies exactly the declared
migrations in the half-open range `(fromVersion, toVersion]`, ascending by
version, as a left fold seeded with `data`, and the declaration order of
the migrations does not affect the result — except that with an empty
migrations list the engine instead returns `schema.default` when
`fromVersion = 0` (and `data` otherwise), rather than the fold's seed. -/
theorem executeMigrations_fold_characterization {α : Type} (data : α)
    (schema : Schema α) (fromVersion toVersion : Int)
    (hlt : fromVersion < toVersion)
    (hnd : (schema.migrations.map Migration.version).Nodup) :
    (schema.migrations = [] →
      executeMigrations data schema fromVersion toVersion =
        .ok (if fromVersion = 0 then schema.default else data))
    ∧ (schema.migrations ≠ [] →
        ((sortByVersion schema.migrations).filter
            (fun m => fromVersion < m.version && m.version ≤ toVersion)).Pairwise
          (fun a b => a.version ≤ b.version)
        ∧ List.Perm
            ((sortByVersion schema.migrations).filter
              (fun m => fromVersion < m.version && m.version ≤ toVersion))
            (schema.migrations.filter
              (fun m => fromVersion < m.version && m.version ≤ toVersion))
        ∧ executeMigrations data schema fromVersion toVersion =
            applyMigs data fromVersion
              ((sortByVersion schema.migrations).filter
                (fun m => fromVersion < m.version && m.version ≤ toVersion)))
    ∧ ∀ l₂, List.Perm l₂ schema.migrations →
        executeMigrations data { schema with migrations := l₂ }
            fromVersion toVersion =
          executeMigrations data schema fromVersion toVersion := by
  refine ⟨fun he => executeMigrations_of_empty data schema _ _ hlt he,
    fun hne => ⟨?_, ?_, executeMigrations_eq_fold data schema _ _ hlt hne⟩, ?_⟩
  · exact (sortByVersion_sorted schema.migrations).filter _
  · exact (sortByVersion_perm schema.migrations).filter _
  · intro l₂ hp
    cases hm : schema.migrations with
    | nil =>
      rw [hm] at hp
      have hl₂ : l₂ = [] := hp.eq_nil
      rw [executeMigrations_of_empty data _ _ _ hlt hl₂,
        executeMigrations_of_empty data _ _ _ hlt hm]
    | cons a l =>
      have hne : schema.migrations ≠ [] := by rw [hm]; exact List.cons_ne_nil a l
      have hne₂ : l₂ ≠ [] := by
        intro h0
        rw [h0] at hp
        exact hne hp.nil_eq.symm
      rw [executeMigrations_eq_fold data _ _ _ hlt hne₂,
        executeMigrations_eq_fold data _ _ _ hlt hne]
      have hfeq :
          (sortByVersion l₂).filter
              (fun m => fromVersion < m.version && m.version ≤ toVersion) =
            (sortByVersion schema.migrations).filter
              (fun m => fromVersion < m.version && m.version ≤ toVersion) := by
        have hperm : List.Perm
            ((sortByVersion l₂).filter
              (fun m => fromVersion < m.version && m.version ≤ toVersion))
            ((sortByVersion schema.migrations).filter
              (fun m => fromVersion < m.version && m.version ≤ toVersion)) :=
          (((sortByVersion_perm l₂).trans hp).trans
            (sortByVersion_perm schema.migrations).symm).filter _
        have hnds₁ : ((sortByVersion schema.migrations).map Migration.version).Nodup :=
          (((sortByVersion_perm schema.migrations).map Migration.version).nodup_iff).mpr hnd
        have hnds₂ : ((sortByVersion l₂).map Migration.version).Nodup := by
          refine (((sortByVersion_perm l₂).map Migration.version).nodup_iff).mpr ?_
          exact ((hp.map Migration.version).nodup_iff).mpr hnd
        have hlt₁ :
            ((sortByVersion schema.migrations).filter
              (fun m => fromVersion < m.version && m.version ≤ toVersion)).Pairwise
              (fun a b => a.version < b.version) := by
          have hle := (sortByVersion_sorted schema.migrations).filter
            (fun m => fromVersion < m.version && m.version ≤ toVersion)
          have hndf : (((sortByVersion schema.migrations).filter
              (fun m => fromVersion < m.version && m.version ≤ toVersion)).map
                Migration.version).Nodup :=
            hnds₁.sublist ((List.filter_sublist _).map Migration.version)
          have hnef := (List.pairwise_map.mp hndf)
          exact (hle.and hnef).imp (fun h => lt_of_le_of_ne h.1 h.2)
        have hlt₂ :
            ((sortByVersion l₂).filter
              (fun m => fromVersion < m.version && m.version ≤ toVersion)).Pairwise
              (fun a b => a.version < b.version) := by
          have hle := (sortByVersion_sorted l₂).filter
            (fun m => fromVersion < m.version && m.version ≤ toVersion)
          have hndf : (((sortByVersion l₂).filter
              (fun m => fromVersion < m.version && m.version ≤ toVersion)).map
                Migration.version).Nodup :=
            hnds₂.sublist ((List.filter_sublist _).map Migration.version)
          have hnef := (List.pairwise_map.mp hndf)
          exact (hle.and hnef).imp (fun h => lt_of_le_of_ne h.1 h.2)
        haveI : IsAntisymm (Migration α) (fun a b => a.version < b.version) :=
          ⟨fun a b h1 h2 => absurd (h1.trans h2) (lt_irrefl _)⟩
        exact List.eq_of_perm_of_sorted hperm hlt₂ hlt₁
      rw [hfeq]

/-- C1 counterexample: `dupSchemaB` declares the same two migrations as
`dupSchemaA` in the opposite order (both labelled version 2, as nothing
prevents), and `executeMigrations` produces different results for the two
declaration orders, refuting "the order in which the migrations are
declared in the schema does not affect the result" as universally stated. -/
theorem executeMigrations_order_dependent :
    List.Perm dupSchemaB.migrations dupSchemaA.migrations ∧
    executeMigrations (1 : Int) dupSchemaA 0 2 = .ok 4 ∧
    executeMigrations (1 : Int) dupSchemaB 0 2 = .ok 3 ∧
    executeMigrations (1 : Int) dupSchemaA 0 2 ≠
      executeMigrations (1 : Int) dupSchemaB 0 2 := by
  refine ⟨List.Perm.swap migAdd1 migDouble [], rfl, rfl, fun h => ?_⟩
  have h' : (Except.ok 4 : Except MigrationError Int) = Except.ok 3 := h
  injection h' with h''
  exact absurd h'' (by decide)

/-- Witness for the amended C1: the three-migration schema `foldSchema`,
declared out of order with pairwise-distinct versions, instantiates the
fold characterization at `fromVersion = 1`, `toVersion = 5`. -/
theorem executeMigrations_fold_characterization_witness :
    (1 : Int) < 5 ∧ (foldSchema.migrations.map Migration.version).Nodup ∧
    (foldSchema.migrations ≠ [] →
      ((sortByVersion foldSchema.migrations).filter
          (fun m => 1 < m.version && m.version ≤ 5)).Pairwise
        (fun a b => a.version ≤ b.version)
      ∧ List.Perm
          ((sortByVersion foldSchema.migrations).filter
            (fun m => 1 < m.version && m.version ≤ 5))
          (foldSchema.migrations.filter
            (fun m => 1 < m.version && m.version ≤ 5))
      ∧ executeMigrations 1 foldSchema 1 5 =
          applyMigs 1 1
            ((sortByVersion foldSchema.migrations).filter
              (fun m => 1 < m.version && m.version ≤ 5))) :=
  ⟨by decide, by decide,
    (executeMigrations_fold_characterization 1 foldSchema 1 5 (by decide)
      (by decide)).2.1⟩

/-! ### Migration failure: error contents and no-write guarantee
(claims C3 and C4) -/

/-- C3 (code evaluation at the failing input): running `initializeKey` on
key `"user"` with a throwing version-2 step aborts before the version-3
step and raises a `MigrationError` whose `fromVersion` is the run's start
(0), whose `toVersion` is the failing step's version (2), and whose cause
is the thrown error — but whose `key` field is the placeholder
`"unknown"`, not `"user"`: the inline comment "key will be set in calling
code" is never honoured by any caller. -/
theorem initializeKey_migration_failure_key_unknown :
    initializeKey failStore "user" failSchema =
      .error (.migration ⟨"boom", "unknown", 0, 2, "boom"⟩, failStore) ∧
    "unknown" ≠ "user" :=
  ⟨rfl, by decide⟩

/-- C4: whenever `initializeKey` raises (in particular when a migration
step throws), the store reported at the moment of the throw is exactly the
input store: neither the data entry nor the version metadata entry was
written, because all writes come after the migration pipeline completes. -/
theorem initializeKey_error_no_write {α : Type} (st : Store) (key : String)
    (schema : Schema α) (e : RunError) (stE : Store)
    (h : initializeKey st key schema = .error (e, stE)) : stE = st := by
  simp only [initializeKey] at h
  split at h
  · simp at h
  · split at h
    · simp at h
    · split at h
      · rename_i e2 heq
        injection h with h1
        split at heq
        · split at heq <;> simp_all
        · split at heq
          · simp at heq
          · simp at heq
          · split at heq <;> simp_all
          · split at heq <;> simp_all
      · simp at h
      · simp at h

/-- Witness for C4: the concrete failing run of claim C3's input, with the
no-write conclusion derived by the theorem. -/
theorem initializeKey_error_no_write_witness :
    failStore = failStore :=
  initializeKey_error_no_write failStore "user" failSchema
    (.migration ⟨"boom", "unknown", 0, 2, "boom"⟩) failStore rfl

/-! ### Reconciliation `migrate` for a newer stored version (claim C2) -/

theorem strFalsy_some_of_ne {d : String} (h : d.data ≠ []) :
    strFalsy (some d) = false := by
  simp [strFalsy, h]

/-- C2 counterexample: with stored version 3, target 1 and default
(`migrate`) reconciliation, the engine is called as
`executeMigrations(data, schema, 1, 3)`, its `fromVersion ≥ toVersion`
guard does not fire, the stale version-2 migration is re-applied, and the
committed and returned value is 11 — not the stored value 10. -/
theorem initializeKey_newer_migrate_not_noop :
    initializeKey staleStore "k" staleSchema =
      .ok (setStoredVersion (setItem staleStore "k" (tser 11)) "k" 1, some 11) ∧
    staleStore "k" = some "10" ∧ tdeser "10" = 10 ∧ (11 : Int) ≠ 10 :=
  ⟨rfl, rfl, rfl, by decide⟩

/-- C2 (amended): when the stored version `fv` exceeds the target and the
reconciliation policy is `'migrate'` (or unset, `'migrate'` being the
default), `initializeKey` calls the Migration Engine with its arguments
swapped so that the engine runs *forward* from the target to the stored
version — the `fromVersion ≥ toVersion` short-circuit does not fire — and
commits and returns whatever that run produces; the stored value comes
back unchanged only when no declared migration has version in
`(schema.version, fv]`, and even then it is re-committed. -/
theorem initializeKey_newer_migrate_reapplies {α : Type} (st : Store)
    (key : String) (schema : Schema α) (fv : Int) (d : String)
    (hv : 1 ≤ schema.version)
    (hmeta : getStoredVersion st key = some fv)
    (hgt : schema.version < fv)
    (hrec : schema.reconciliation = none ∨
      schema.reconciliation = some .migrate)
    (hdata : st key = some d) (hne : d.data ≠ []) :
    initializeKey st key schema =
      (match executeMigrations (schema.deser d) schema schema.version fv with
       | .error e => .error (.migration e, st)
       | .ok v =>
         .ok (setStoredVersion (setItem st key (schema.ser v)) key
                schema.version, some v))
    ∧ (schema.migrations.filter
          (fun m => schema.version < m.version && m.version ≤ fv) = [] →
        executeMigrations (schema.deser d) schema schema.version fv =
          .ok (schema.deser d)) := by
  have hrec' : schema.reconciliation.getD .migrate = .migrate := by
    rcases hrec with h | h <;> simp [h]
  constructor
  · simp only [initializeKey, hdata, strFalsy_some_of_ne hne, hmeta]
    rw [if_neg (by simp : ¬ (false = true))]
    simp only [Option.getD_some]
    rw [if_neg (by omega : ¬ fv = schema.version),
      if_neg (by omega : ¬ fv < schema.version), hrec']
    cases hE : executeMigrations (schema.deser d) schema schema.version fv with
    | ok v => simp [hE]
    | error e => simp [hE]
  · intro hfil
    rcases hm : schema.migrations with _ | ⟨a, l⟩
    · rw [executeMigrations_of_empty _ _ _ _ hgt hm,
        if_neg (by omega : ¬ schema.version = 0)]
    · have hne' : schema.migrations ≠ [] := by rw [hm]; exact List.cons_ne_nil a l
      rw [executeMigrations_eq_fold _ _ _ _ hgt hne']
      have hperm := (sortByVersion_perm schema.migrations).filter
        (fun m => schema.version < m.version && m.version ≤ fv)
      rw [hfil] at hperm
      rw [hperm.eq_nil]
      rfl

/-- Witness for the amended C2 at the concrete stale-migration store. -/
theorem initializeKey_newer_migrate_reapplies_witness :
    initializeKey staleStore "k" staleSchema =
      (match executeMigrations (staleSchema.deser "10") staleSchema
          staleSchema.version 3 with
       | .error e => .error (.migration e, staleStore)
       | .ok v =>
         .ok (setStoredVersion (setItem staleStore "k" (staleSchema.ser v))
                "k" staleSchema.version, some v)) :=
  (initializeKey_newer_migrate_reapplies staleStore "k" staleSchema 3 "10"
    (by decide) (by decide) (by decide) (.inl rfl) rfl (by decide)).1

/-! ### Version invariant after initialization and after `set` (claim C5) -/

/-- C5: after a successful `initializeKey`, the persisted metadata for the
key reads exactly `schema.version` — unless the run took the `ignore`
reconciliation branch (the only branch returning `null`), which performs
no write at all, leaving the whole store (and hence the pre-existing
metadata) untouched; and after a successful `set`, the persisted metadata
always reads `schema.version`.  `1 ≤ schema.version` is the data model's
own constraint on schemas (`version: integer ≥ 1`). -/
theorem version_metadata_after_init_and_set {α : Type} (st : Store)
    (key : String) (schema : Schema α) (hv : 1 ≤ schema.version) :
    (∀ st' v, initializeKey st key schema = .ok (st', v) →
      (v = none → st' = st) ∧
      (v ≠ none → getStoredVersion st' key = some schema.version))
    ∧ (∀ value st', pset st key schema value = .ok st' →
        getStoredVersion st' key = some schema.version) := by
  have hzero : (0 : Int) ≤ schema.version := by omega
  constructor
  · intro st' v h
    simp only [initializeKey] at h
    split at h
    · -- no-data branch: metadata written to schema.version
      injection h with h1
      injection h1 with hst hv'
      subst hst
      refine ⟨fun hvn => by simp [hvn] at hv', fun _ => ?_⟩
      exact getStoredVersion_setStoredVersion_self st key hzero
    · split at h
      · -- fast path: no write, stored version already equals the target
        rename_i hfalsy hfast
        injection h with h1
        injection h1 with hst hv'
        subst hst
        refine ⟨fun hvn => by simp [hvn] at hv', fun _ => ?_⟩
        cases hm : getStoredVersion st key with
        | none => rw [hm] at hfast; simp at hfast; omega
        | some w =>
          rw [hm] at hfast
          simp at hfast
          rw [hfast]
      · split at h
        · simp at h
        · -- ignore branch: store returned unchanged, value is none
          injection h with h1
          injection h1 with hst hv'
          subst hst
          exact ⟨fun _ => rfl, fun hvn => absurd hv'.symm hvn⟩
        · -- commit branch: metadata written to schema.version
          injection h with h1
          injection h1 with hst hv'
          subst hst
          refine ⟨fun hvn => by simp [hvn] at hv', fun _ => ?_⟩
          exact getStoredVersion_setStoredVersion_self _ key hzero
  · intro value st' h
    simp only [pset] at h
    split at h
    · simp at h
    · injection h with h1
      subst h1
      exact getStoredVersion_setStoredVersion_self _ key hzero

/-- Witness for C5: a fresh key under `foldSchema` (version 5): the
initialization succeeds with a non-null value and the theorem yields that
the persisted metadata reads 5. -/
theorem version_metadata_after_init_and_set_witness :
    getStoredVersion (setStoredVersion emptyStore "u" foldSchema.version) "u" =
      some foldSchema.version :=
  ((version_metadata_after_init_and_set emptyStore "u" foldSchema
        (by decide)).1
      (setStoredVersion emptyStore "u" foldSchema.version)
      (some foldSchema.default) rfl).2 (by simp)

/-! ### The `ignore` reconciliation branch (claim C6) -/

/-- C6: with a stored version exceeding the target and policy `'ignore'`,
`initializeKey` returns `null` and the final store is the input store
itself: no write at all happened for the key, so both its data entry and
its version metadata entry are exactly as before the call. -/
theorem initializeKey_ignore_no_write {α : Type} (st : Store) (key : String)
    (schema : Schema α) (v : Int) (d : String)
    (hmeta : getStoredVersion st key = some v) (hgt : schema.version < v)
    (hrec : schema.reconciliation = some .ignore)
    (hdata : st key = some d) (hne : d.data ≠ []) :
    initializeKey st key schema = .ok (st, none) := by
  simp only [initializeKey, hdata, strFalsy_some_of_ne hne, hmeta]
  rw [if_neg (by simp : ¬ (false = true))]
  simp only [Option.getD_some]
  rw [if_neg (by omega : ¬ v = schema.version),
    if_neg (by omega : ¬ v < schema.version), hrec]
  rfl

/-- Witness for C6 at the concrete `ignoreStore` (stored version 7,
target 3, policy `'ignore'`). -/
theorem initializeKey_ignore_no_write_witness :
    initializeKey ignoreStore "g" ignoreSchema = .ok (ignoreStore, none) :=
  initializeKey_ignore_no_write ignoreStore "g" ignoreSchema 7 "42"
    (by decide) (by decide) rfl rfl (by decide)

/-! ### Fresh keys: default value and metadata write (claim C8) -/

/-- C8: for a key with no (truthy) stored value, `initializeKey` writes
only the metadata record `{version: schema.version}`, runs no migration,
and returns `schema.default`; the data entry stays as it was, so a
subsequent `get` falls back to the schema default as well. -/
theorem initializeKey_no_data_default {α : Type} (st : Store) (key : String)
    (schema : Schema α) (hraw : strFalsy (st key) = true)
    (hv : 1 ≤ schema.version) :
    initializeKey st key schema =
      .ok (setStoredVersion st key schema.version, some schema.default)
    ∧ setStoredVersion st key schema.version key = st key
    ∧ getStoredVersion (setStoredVersion st key schema.version) key =
        some schema.version
    ∧ pget (setStoredVersion st key schema.version) key schema =
        .ok schema.default := by
  refine ⟨?_, setStoredVersion_data_entry st key schema.version,
    getStoredVersion_setStoredVersion_self st key (by omega), ?_⟩
  · simp only [initializeKey, hraw]
    rfl
  · simp only [pget, setStoredVersion_data_entry st key schema.version, hraw]
    rfl

/-- Witness for C8 at a fresh key of the empty store. -/
theorem initializeKey_no_data_default_witness :
    initializeKey emptyStore "fresh" freshSchema =
      .ok (setStoredVersion emptyStore "fresh" freshSchema.version,
           some freshSchema.default)
    ∧ pget (setStoredVersion emptyStore "fresh" freshSchema.version) "fresh"
        freshSchema = .ok freshSchema.default :=
  ⟨(initializeKey_no_data_default emptyStore "fresh" freshSchema rfl
      (by decide)).1,
   (initializeKey_no_data_default emptyStore "fresh" freshSchema rfl
      (by decide)).2.2.2⟩

/-! ### Corrupt metadata handling (claim C9) -/

theorem getStoredVersion_setStoredVersion_congr (s s' : Store) (key : String)
    (version : Int) :
    getStoredVersion (setStoredVersion s key version) key =
      getStoredVersion (setStoredVersion s' key version) key := by
  unfold getStoredVersion setStoredVersion
  rw [setItem_self, setItem_self]

/-- `initializeKey` reads the store only at the data key and the version
key: two stores agreeing there produce the same outcome, with the final
(or error-time) stores built by the same transformation on each side. -/
theorem initializeKey_store_local {α : Type} (st st' : Store) (key : String)
    (schema : Schema α) (hdata : st' key = st key)
    (hver : getStoredVersion st' key = getStoredVersion st key) :
    (∃ e, initializeKey st key schema = .error (e, st) ∧
      initializeKey st' key schema = .error (e, st'))
    ∨ (∃ v, initializeKey st key schema = .ok (st, v) ∧
        initializeKey st' key schema = .ok (st', v))
    ∨ (∃ x, initializeKey st key schema =
          .ok (setStoredVersion (setItem st key (schema.ser x)) key
                 schema.version, some x) ∧
        initializeKey st' key schema =
          .ok (setStoredVersion (setItem st' key (schema.ser x)) key
                 schema.version, some x))
    ∨ (initializeKey st key schema =
        .ok (setStoredVersion st key schema.version, some schema.default) ∧
       initializeKey st' key schema =
        .ok (setStoredVersion st' key schema.version, some schema.default)) := by
  simp only [initializeKey, hdata, hver]
  by_cases hf : strFalsy (st key) = true
  · right; right; right
    rw [if_pos hf, if_pos hf]
    exact ⟨rfl, rfl⟩
  · rw [if_neg hf, if_neg hf]
    by_cases h0 : (getStoredVersion st key).getD 0 = schema.version
    · right; left
      rw [if_pos h0, if_pos h0]
      exact ⟨some (schema.deser ((st key).getD "")), rfl, rfl⟩
    · rw [if_neg h0, if_neg h0]
      by_cases hl : (getStoredVersion st key).getD 0 < schema.version
      · rw [if_pos hl, if_pos hl]
        cases hE : executeMigrations (schema.deser ((st key).getD "")) schema
            ((getStoredVersion st key).getD 0) schema.version with
        | error e => left; exact ⟨.migration e, by simp [hE], by simp [hE]⟩
        | ok x => right; right; left; exact ⟨x, by simp [hE], by simp [hE]⟩
      · rw [if_neg hl, if_neg hl]
        cases hr : schema.reconciliation.getD .migrate with
        | reset => right; right; left; exact ⟨schema.default, by simp [hr], by simp [hr]⟩
        | ignore => right; left; exact ⟨none, by simp [hr], by simp [hr]⟩
        | migrate =>
          cases hE : executeMigrations (schema.deser ((st key).getD "")) schema
              schema.version ((getStoredVersion st key).getD 0) with
          | error e => left; exact ⟨.migration e, by simp [hr, hE], by simp [hr, hE]⟩
          | ok x => right; right; left; exact ⟨x, by simp [hr, hE], by simp [hr, hE]⟩
        | custom f =>
          cases hE : f (schema.deser ((st key).getD ""))
              ((getStoredVersion st key).getD 0) schema.version with
          | error msg => left; exact ⟨.other msg, by simp [hr, hE], by simp [hr, hE]⟩
          | ok x => right; right; left; exact ⟨x, by simp [hr, hE], by simp [hr, hE]⟩

/-- C9: `getStoredVersion` never raises — it returns `none` both when the
metadata record is absent and when the record's text does not parse — and
`initializeKey` treats a corrupt record exactly like a missing one
(`fromVersion = 0`): starting from the same data entry, the run with the
corrupt record raises the same error, or succeeds with the same value and
the same final data entry and version entry for the key. -/
theorem getStoredVersion_corrupt_as_missing {α : Type} (st : Store)
    (key : String) (schema : Schema α) (c : String)
    (hmiss : st (getVersionKey key) = none) (hcor : decodeMeta c = none) :
    getStoredVersion st key = none
    ∧ getStoredVersion (setItem st (getVersionKey key) c) key = none
    ∧ (∀ e stE, initializeKey st key schema = .error (e, stE) →
        initializeKey (setItem st (getVersionKey key) c) key schema =
          .error (e, setItem st (getVersionKey key) c))
    ∧ (∀ st₁ v, initializeKey st key schema = .ok (st₁, v) →
        ∃ st₂,
          initializeKey (setItem st (getVersionKey key) c) key schema =
            .ok (st₂, v) ∧
          st₁ key = st₂ key ∧
          getStoredVersion st₁ key = getStoredVersion st₂ key) := by
  have h1 : getStoredVersion st key = none := by
    unfold getStoredVersion
    rw [hmiss]
  have h2 : getStoredVersion (setItem st (getVersionKey key) c) key = none := by
    unfold getStoredVersion
    rw [setItem_self]
    simp [hcor]
  have hdata : setItem st (getVersionKey key) c key = st key :=
    setItem_other st c (getVersionKey_ne_self key).symm
  have hver := h2.trans h1.symm
  refine ⟨h1, h2, ?_, ?_⟩
  · intro e' stE h
    rcases initializeKey_store_local st (setItem st (getVersionKey key) c) key
        schema hdata hver with
      ⟨e, he, he'⟩ | ⟨v, ho, _⟩ | ⟨x, ho, _⟩ | ⟨ho, _⟩
    · rw [he] at h
      injection h with h'
      injection h' with hee hst
      rw [← hee]
      exact he'
    · rw [ho] at h; simp at h
    · rw [ho] at h; simp at h
    · rw [ho] at h; simp at h
  · intro st₁ v h
    rcases initializeKey_store_local st (setItem st (getVersionKey key) c) key
        schema hdata hver with
      ⟨e, he, _⟩ | ⟨w, ho, ho'⟩ | ⟨x, ho, ho'⟩ | ⟨ho, ho'⟩
    · rw [he] at h; simp at h
    · rw [ho] at h
      injection h with h'
      injection h' with hst hv
      refine ⟨setItem st (getVersionKey key) c, ?_, ?_, ?_⟩
      · rw [← hv]; exact ho'
      · rw [← hst, hdata]
      · rw [← hst, hver]
    · rw [ho] at h
      injection h with h'
      injection h' with hst hv
      refine ⟨setStoredVersion
          (setItem (setItem st (getVersionKey key) c) key (schema.ser x)) key
          schema.version, ?_, ?_, ?_⟩
      · rw [← hv]; exact ho'
      · rw [← hst, setStoredVersion_data_entry, setStoredVersion_data_entry,
          setItem_self, setItem_self]
      · rw [← hst]
        exact getStoredVersion_setStoredVersion_congr _ _ key schema.version
    · rw [ho] at h
      injection h with h'
      injection h' with hst hv
      refine ⟨setStoredVersion (setItem st (getVersionKey key) c) key
          schema.version, ?_, ?_, ?_⟩
      · rw [← hv]; exact ho'
      · rw [← hst, setStoredVersion_data_entry, setStoredVersion_data_entry,
          hdata]
      · rw [← hst]
        exact getStoredVersion_setStoredVersion_congr _ _ key schema.version

/-- Witness for C9: the empty store (no metadata record for `"w"`) and the
unparseable metadata text `"oops"`. -/
theorem getStoredVersion_corrupt_as_missing_witness :
    getStoredVersion emptyStore "w" = none
    ∧ getStoredVersion (setItem emptyStore (getVersionKey "w") "oops") "w" =
        none :=
  ⟨(getStoredVersion_corrupt_as_missing emptyStore "w" freshSchema "oops" rfl
      (by decide)).1,
   (getStoredVersion_corrupt_as_missing emptyStore "w" freshSchema "oops" rfl
      (by decide)).2.1⟩

/-! ### Key enumeration and length (claim C10) -/

/-- C10: `keys()` returns exactly the adapter's keys that lack the
version-metadata prefix and have a declared schema, and `length()` counts
that same filtered set; entries under undeclared keys are invisible, and a
declared key whose own name starts with the prefix is excluded too. -/
theorem pkeys_plength_spec {α : Type} (allKeys : List String)
    (schemas : List (String × Schema α)) :
    (∀ k, k ∈ pkeys allKeys schemas ↔
      k ∈ allKeys ∧ isVersionKey k = false ∧
        (schemas.lookup k).isSome = true)
    ∧ plength allKeys schemas = (pkeys allKeys schemas).length := by
  refine ⟨fun k => ?_, rfl⟩
  simp [pkeys, List.mem_filter, and_assoc]

/-! ### Idempotent re-open (claim C7) -/

theorem setItem_of_present {st : Store} {k v : String} (h : st k = some v) :
    setItem st k v = st := by
  funext j
  by_cases hj : j = k
  · rw [hj, setItem_self, h]
  · exact setItem_other st v hj

theorem reconIsIgnore_of_getD {α : Type} {o : Option (Reconciliation α)}
    (h : o.getD .migrate = .ignore) : reconIsIgnore o = true := by
  cases o with
  | none => simp at h
  | some r =>
    simp only [Option.getD_some] at h
    rw [h]
    rfl

theorem getD_of_reconIsIgnore {α : Type} {o : Option (Reconciliation α)}
    (h : reconIsIgnore o = true) : o.getD .migrate = .ignore := by
  cases o with
  | none => simp [reconIsIgnore] at h
  | some r => cases r <;> simp_all [reconIsIgnore]

/-- `initializeKey` writes at most the data entry and the version entry of
its key: every other store entry survives a successful run unchanged. -/
theorem initializeKey_frame {α : Type} {st : Store} {key : String}
    {schema : Schema α} {st' : Store} {v : Option α}
    (h : initializeKey st key schema = .ok (st', v)) :
    ∀ j, j ≠ key → j ≠ getVersionKey key → st' j = st j := by
  intro j hj hjv
  simp only [initializeKey] at h
  split at h
  · injection h with h1
    injection h1 with hst _
    rw [← hst, setStoredVersion, setItem_other _ _ hjv]
  · split at h
    · injection h with h1
      injection h1 with hst _
      rw [← hst]
    · split at h
      · simp at h
      · injection h with h1
        injection h1 with hst _
        rw [← hst]
      · injection h with h1
        injection h1 with hst _
        rw [← hst, setStoredVersion, setItem_other _ _ hjv,
          setItem_other _ _ hj]

/-- After a successful `initializeKey`, the key is left in a stable state:
no-migration-work branch conditions hold for any later run. The bound
`1 ≤ schema.version` is the data model's constraint on schemas. -/
theorem initializeKey_stable {α : Type} {st : Store} {key : String}
    {schema : Schema α} {st' : Store} {v : Option α}
    (hv : 1 ≤ schema.version)
    (h : initializeKey st key schema = .ok (st', v)) :
    stableKey st' key schema := by
  simp only [initializeKey] at h
  split at h
  · rename_i hf
    injection h with h1
    injection h1 with hst _
    subst hst
    left
    refine ⟨?_, by rw [setStoredVersion, setItem_self]⟩
    rw [setStoredVersion_data_entry]
    exact hf
  · rename_i hf
    simp only [Bool.not_eq_true] at hf
    split at h
    · rename_i hfast
      injection h with h1
      injection h1 with hst _
      subst hst
      right; left
      refine ⟨hf, ?_⟩
      cases hm : getStoredVersion st key with
      | none =>
        rw [hm] at hfast
        simp at hfast
        omega
      | some w =>
        rw [hm] at hfast
        simp at hfast
        rw [hfast]
    · split at h
      · simp at h
      · -- the `ok none` arm: only the `ignore` reconciliation produces it
        rename_i heq
        injection h with h1
        injection h1 with hst _
        subst hst
        split at heq
        · split at heq <;> simp at heq
        · split at heq
          · simp at heq
          · rename_i heqr
            right; right
            refine ⟨hf, reconIsIgnore_of_getD heqr, ?_⟩
            have hfv : schema.version < (getStoredVersion st key).getD 0 := by
              omega
            cases hm : getStoredVersion st key with
            | none =>
              rw [hm] at hfv
              simp at hfv
              omega
            | some w =>
              rw [hm] at hfv
              simp at hfv
              exact ⟨w, rfl, hfv⟩
          · split at heq <;> simp at heq
          · split at heq <;> simp at heq
      · -- the commit arm: data and metadata were just written
        rename_i x heq
        injection h with h1
        injection h1 with hst _
        subst hst
        have hdk : setStoredVersion (setItem st key (schema.ser x)) key
            schema.version key = some (schema.ser x) := by
          rw [setStoredVersion_data_entry, setItem_self]
        by_cases hser : (schema.ser x).data.isEmpty = true
        · left
          refine ⟨?_, by rw [setStoredVersion, setItem_self]⟩
          rw [hdk]
          exact hser
        · right; left
          refine ⟨?_, ?_⟩
          · rw [hdk]
            simpa [strFalsy] using hser
          · exact getStoredVersion_setStoredVersion_self _ key (by omega)

/-- `stableKey` only reads the key's data entry and version entry. -/
theorem stableKey_congr {α : Type} {st st' : Store} {key : String}
    {schema : Schema α} (hd : st' key = st key)
    (hm : st' (getVersionKey key) = st (getVersionKey key))
    (h : stableKey st key schema) : stableKey st' key schema := by
  unfold stableKey at h ⊢
  rw [hd, hm, getStoredVersion_congr key hm]
  exact h

/-- A stable key's initialization succeeds and leaves the store untouched
(the no-data branch rewrites the identical metadata record). -/
theorem initializeKey_of_stable {α : Type} {st : Store} {key : String}
    {schema : Schema α} (h : stableKey st key schema) :
    ∃ v, initializeKey st key schema = .ok (st, v) := by
  rcases h with ⟨hf, hmeta⟩ | ⟨hf, hver⟩ | ⟨hf, hrec, w, hver, hgt⟩
  · refine ⟨some schema.default, ?_⟩
    simp only [initializeKey, hf, if_pos]
    rw [setStoredVersion, setItem_of_present hmeta]
  · refine ⟨some (schema.deser ((st key).getD "")), ?_⟩
    simp only [initializeKey, hf, hver]
    rw [if_neg (by simp : ¬ (false = true))]
    simp
  · refine ⟨none, ?_⟩
    simp only [initializeKey, hf, hver]
    rw [if_neg (by simp : ¬ (false = true))]
    simp only [Option.getD_some]
    rw [if_neg (by omega : ¬ w = schema.version),
      if_neg (by omega : ¬ w < schema.version), getD_of_reconIsIgnore hrec]

/-- `openDB` writes only the data and version entries of the keys it
initializes. -/
theorem openDB_frame {α : Type} :
    ∀ (entries : List (String × Schema α)) (st st' : Store),
      openDB st entries = .ok st' →
      ∀ j, (∀ p ∈ entries, j ≠ p.1 ∧ j ≠ getVersionKey p.1) →
        st' j = st j := by
  intro entries
  induction entries with
  | nil =>
    intro st st' h j _
    simp only [openDB] at h
    injection h with h1
    rw [h1]
  | cons p rest ih =>
    intro st st' h j hj
    simp only [openDB] at h
    split at h
    · simp at h
    · rename_i st₀ v heq
      have h1 := ih st₀ st' h j (fun q hq => hj q (List.mem_cons_of_mem p hq))
      have h2 := initializeKey_frame heq j (hj p (List.mem_cons_self p rest)).1
        (hj p (List.mem_cons_self p rest)).2
      rw [h1, h2]

/-- After a successful `openDB` over pairwise-distinct, non-prefixed keys
with data-model-conforming versions, every declared key is stable. -/
theorem openDB_stable {α : Type} :
    ∀ (entries : List (String × Schema α)) (st st₁ : Store),
      (entries.map Prod.fst).Nodup →
      (∀ p ∈ entries, isVersionKey p.1 = false) →
      (∀ p ∈ entries, 1 ≤ p.2.version) →
      openDB st entries = .ok st₁ →
      ∀ p ∈ entries, stableKey st₁ p.1 p.2 := by
  intro entries
  induction entries with
  | nil => intro st st₁ _ _ _ _ p hp; exact absurd hp (List.not_mem_nil p)
  | cons q rest ih =>
    intro st st₁ hnd hpre hv h p hp
    simp only [openDB] at h
    split at h
    · simp at h
    · rename_i st₀ v heq
      rcases List.mem_cons.mp hp with hpq | hpr
      · subst hpq
        have hstab : stableKey st₀ p.1 p.2 :=
          initializeKey_stable (hv p (List.mem_cons_self p rest)) heq
        have hfr : ∀ j, (∀ r ∈ rest, j ≠ r.1 ∧ j ≠ getVersionKey r.1) →
            st₁ j = st₀ j := fun j hj => openDB_frame rest st₀ st₁ h j hj
        have hknd : p.1 ∉ rest.map Prod.fst := by
          simp only [List.map_cons, List.nodup_cons] at hnd
          exact hnd.1
        have hd : st₁ p.1 = st₀ p.1 := by
          refine hfr p.1 (fun r hr => ⟨?_, ?_⟩)
          · intro hcontra
            exact hknd (hcontra ▸ List.mem_map_of_mem Prod.fst hr)
          · exact ne_getVersionKey_of_not_isVersionKey
              (hpre p (List.mem_cons_self p rest)) r.1
        have hmv : st₁ (getVersionKey p.1) = st₀ (getVersionKey p.1) := by
          refine hfr (getVersionKey p.1) (fun r hr => ⟨?_, ?_⟩)
          · exact (ne_getVersionKey_of_not_isVersionKey
              (hpre r (List.mem_cons_of_mem p hr)) p.1).symm
          · intro hcontra
            exact hknd ((getVersionKey_inj hcontra) ▸
              List.mem_map_of_mem Prod.fst hr)
        exact stableKey_congr hd hmv hstab
      · refine ih st₀ st₁ ?_ ?_ ?_ h p hpr
        · simp only [List.map_cons, List.nodup_cons] at hnd
          exact hnd.2
        · exact fun r hr => hpre r (List.mem_cons_of_mem q hr)
        · exact fun r hr => hv r (List.mem_cons_of_mem q hr)

/-- Re-running `openDB` over stable keys succeeds without changing the
store. -/
theorem openDB_of_stable {α : Type} :
    ∀ (entries : List (String × Schema α)) (st : Store),
      (∀ p ∈ entries, stableKey st p.1 p.2) →
      openDB st entries = .ok st := by
  intro entries
  induction entries with
  | nil => intro st _; rfl
  | cons q rest ih =>
    intro st hstab
    obtain ⟨v, hq⟩ := initializeKey_of_stable
      (hstab q (List.mem_cons_self q rest))
    simp only [openDB, hq]
    exact ih st (fun r hr => hstab r (List.mem_cons_of_mem q hr))

/-- C7 (amended): re-opening after a successful open is a no-op — the
second `openDB` succeeds and returns the very same store, and every
declared key sits in a stable (no-migration-work) state: its raw value is
falsy with current metadata (no-data branch), or its stored version equals
the target (fast path), or it is in the `ignore` configuration — provided
the declared keys are pairwise distinct (as `Object.entries` guarantees),
none of them starts with the version-metadata prefix, and the schemas
respect the data model's `version ≥ 1`. -/
theorem openDB_idempotent {α : Type} (entries : List (String × Schema α))
    (st st₁ : Store) (hnd : (entries.map Prod.fst).Nodup)
    (hpre : ∀ p ∈ entries, isVersionKey p.1 = false)
    (hv : ∀ p ∈ entries, 1 ≤ p.2.version)
    (h : openDB st entries = .ok st₁) :
    openDB st₁ entries = .ok st₁ ∧ ∀ p ∈ entries, stableKey st₁ p.1 p.2 := by
  have hs := openDB_stable entries st st₁ hnd hpre hv h
  exact ⟨openDB_of_stable entries st₁ hs, hs⟩

/-- C7 counterexample: when a declared data key itself starts with the
version prefix (`colKey = "__persephone_version__a"`), its data entry is
the metadata entry of `"a"`; two successive opens from the empty store
leave different stores — after the first open `colKey` holds `"10"`, after
the second it holds the re-written metadata record `{"version":1}` — so
re-opening is not idempotent as universally claimed. -/
theorem openDB_reopen_changes_store :
    (openDB emptyStore colSchemas).map
        (fun st1 => (st1 colKey,
          (openDB st1 colSchemas).map (fun st2 => st2 colKey)))
      = .ok (some (tser 10), .ok (some (encodeMeta 1)))
    ∧ tser 10 ≠ encodeMeta 1 :=
  ⟨rfl, by decide⟩

/-- Witness for the amended C7 at a one-key store already at the current
version: both opens return the store unchanged. -/
theorem openDB_idempotent_witness :
    openDB idemStore idemSchemas = .ok idemStore ∧
    ∀ p ∈ idemSchemas, stableKey idemStore p.1 p.2 :=
  openDB_idempotent idemSchemas idemStore idemStore (by decide) (by decide)
    (by decide) rfl
